import Mathlib

/-!
Verification of the net_flow_opt maintenance-plan optimizer.

This file is a shallow embedding of the core of the repository
(src/core/scheduler.py and src/core/moga.py) together with theorems that
settle the frozen claims about it.

Conventions of the embedding:
* Python floats are modelled as rationals (all arithmetic in the source is
  field arithmetic on finitely many values).
* The Weibull shape parameter beta is modelled as an integer, so that the
  powers appearing in the closed-form derivatives stay rational.
* Fallible code (division by zero, numpy calls raising ValueError or
  IndexError on empty input, the assert in MOGA.run) is modelled with
  Option / Except; a loop whose termination the source does not bound is
  given explicit fuel, and running out of fuel is a failure, so a theorem
  conditioned on a successful result speaks exactly about runs of the
  source that return normally.
* The System object (core/system.py, not present in src/) is an external
  collaborator per the spec; it is modelled from the spec as a record with
  a component count, a resource count, the nominal flow, and an abstract
  max-flow function of the set of removed component indices.
* numpy's random draws are modelled by an oracle: an explicit stream of
  naturals (for randint / choice) and of rationals (for rand), consumed
  left to right.  Theorems quantify over the oracle.
-/

namespace NetFlowOpt

/-- Component of the system (external input, core/system.py is not in src/).
Modelled from the spec: cost parameters cp, cc, Weibull-like shape beta and
scale alpha, the individually optimal age x_star, the long-run cost rate
phi_star, and an identity idx used for graph membership. -/
structure Component where
  cp : ℚ
  cc : ℚ
  alpha : ℚ
  beta : ℤ
  x_star : ℚ
  phi_star : ℚ
  idx : ℕ
deriving DecidableEq

/-- Activity, from scheduler.Activity: a component, the (mutable) date t and
the duration d. -/
structure Activity where
  component : Component
  t : ℚ
  d : ℚ
deriving DecidableEq

/-- Activity.expectedCost from scheduler.py line 29. -/
def Activity.expectedCost (a : Activity) (x : ℚ) : ℚ :=
  a.component.cp + a.component.cc * (x / a.component.alpha) ^ a.component.beta

/-- Activity.h, the penalty for deferring the component from its PM date
(scheduler.py line 33). -/
def Activity.h (a : Activity) (delta_t : ℚ) : ℚ :=
  a.expectedCost (a.component.x_star + delta_t) -
    a.expectedCost a.component.x_star - delta_t * a.component.phi_star

/-- Activity.dh, the derivative of the penalty (scheduler.py line 39). -/
def Activity.dh (a : Activity) (delta_t : ℚ) : ℚ :=
  a.component.cc * a.component.alpha ^ (-a.component.beta) *
    (a.component.x_star + delta_t) ^ (a.component.beta - 1) *
    (a.component.beta : ℚ) - a.component.phi_star

/-- Activity.ddh, the second derivative of the penalty (scheduler.py
line 46). -/
def Activity.ddh (a : Activity) (delta_t : ℚ) : ℚ :=
  a.component.cc * a.component.alpha ^ (-a.component.beta) *
    (a.component.beta : ℚ) * ((a.component.beta : ℚ) - 1) *
    (a.component.x_star + delta_t) ^ (a.component.beta - 2)

/-- Group of activities (scheduler.Group).  IC is None until minimize has
run, as in the source constructor. -/
structure Group where
  activities : List Activity
  IC : Option ℚ
deriving DecidableEq

/-- Group.size (scheduler.py line 65). -/
def Group.size (g : Group) : ℕ := g.activities.length

/-- Group.H, the expected cost of corrective maintenance of the group
(scheduler.py line 74). -/
def Group.H (g : Group) (x : ℚ) : ℚ :=
  (g.activities.map (fun a => a.h (x - a.t))).sum

/-- Group.dH (scheduler.py line 78). -/
def Group.dH (g : Group) (x : ℚ) : ℚ :=
  (g.activities.map (fun a => a.dh (x - a.t))).sum

/-- Group.ddH (scheduler.py line 81). -/
def Group.ddH (g : Group) (x : ℚ) : ℚ :=
  (g.activities.map (fun a => a.ddh (x - a.t))).sum

/-- Maximum of a list of rationals; none on the empty list, where Python's
max raises ValueError. -/
def listMax : List ℚ → Option ℚ
  | [] => none
  | x :: xs => some (xs.foldl max x)

/-- Minimum of a list of rationals; none on the empty list, where numpy's
min raises ValueError. -/
def listMin : List ℚ → Option ℚ
  | [] => none
  | x :: xs => some (xs.foldl min x)

/-- Group.is_feasible (scheduler.py lines 84-91): earliest_start is the max
of t - x_star over the group (Python raises on an empty group, modelled by
none), and the group is feasible iff no activity has t + x_star below it. -/
def Group.is_feasible (g : Group) : Option Bool :=
  match listMax (g.activities.map (fun a => a.t - a.component.x_star)) with
  | none => none
  | some earliest_start =>
      some (g.activities.all (fun a =>
        !(decide (a.t + a.component.x_star < earliest_start))))

/-- Failure modes of Group.minimize: the Newton update divides by zero
(Python's ZeroDivisionError), or the modelling fuel for the unbounded
while loop is exhausted. -/
inductive NErr where
  | divZero : NErr
  | noFuel : NErr
deriving DecidableEq

/-- Decidable equality for Except values, used to evaluate the embedded
fallible functions on concrete inputs. -/
instance {ε α : Type} [DecidableEq ε] [DecidableEq α] : DecidableEq (Except ε α) :=
  fun a b =>
    match a, b with
    | .error e, .error f => decidable_of_iff (e = f) (by simp)
    | .error _, .ok _ => .isFalse (by simp)
    | .ok _, .error _ => .isFalse (by simp)
    | .ok x, .ok y => decidable_of_iff (x = y) (by simp)

/-- Newton loop of Group.minimize (scheduler.py lines 98-102).  acc is the
list x of iterates, x the last iterate, diff the value tested by the while
condition (x[-2] - x[-1], a signed difference; it starts at 1e5).  Returns
the full iterate list and the final iterate. -/
def newtonGo (dH ddH : ℚ → ℚ) : ℕ → List ℚ → ℚ → ℚ → Except NErr (List ℚ × ℚ)
  | 0, _, _, _ => .error .noFuel
  | fuel + 1, acc, x, diff =>
      if diff > 1 / 1000 then
        if ddH x = 0 then .error .divZero
        else
          let x1 := x - dH x / ddH x
          newtonGo dH ddH fuel (acc ++ [x1]) x1 (x - x1)
      else .ok (acc, x)

/-- Group.minimize (scheduler.py lines 93-107): Newton iteration from the
mean of the due dates; on success IC is set to H at the final iterate and
every activity's t is rewritten to it.  A group of size zero makes the
source divide by zero when computing the mean. -/
def Group.minimizeGo (g : Group) (fuel : ℕ) : Except NErr (List ℚ × ℚ × Group) :=
  if g.activities.length = 0 then .error .divZero
  else
    let x0 := (g.activities.map (fun a => a.t)).sum / (g.activities.length : ℚ)
    match newtonGo g.dH g.ddH fuel [x0] x0 100000 with
    | .error e => .error e
    | .ok (tr, xf) =>
        .ok (tr, xf, { activities := g.activities.map (fun a => { a with t := xf }),
                       IC := some (g.H xf) })

/-- Default component, used only to give list indexing a total model. -/
def defaultComponent : Component := ⟨0, 0, 1, 2, 1, 0, 0⟩

/-- Default activity for total list indexing. -/
def defaultActivity : Activity := ⟨defaultComponent, 0, 0⟩

/-- System (external input; core/system.py is not in src/).  Modelled from
the spec: N is the component count, resources the number of repair crews,
regular_flow the max flow with all components active, and flowOf the
max-flow value from s to t once the nodes whose component indices appear in
the given list have been removed (it abstracts the composition of
structure copying, from_node_to_edge_capacity and networkx maximum_flow_value). -/
structure SystemM where
  N : ℕ
  resources : ℕ
  regular_flow : ℚ
  flowOf : List ℕ → ℚ

/-- Event of Plan.generate_structure_history: a date together with the
indices of the components that are inactive at that date. -/
structure Event where
  date : ℚ
  inactive : List ℕ
deriving DecidableEq

/-- Event enriched with the max-flow value of the corresponding system
configuration (Plan.generate_flow_history). -/
structure FlowEvent where
  date : ℚ
  inactive : List ℕ
  flow : ℚ
deriving DecidableEq

/-- Stable insertion into a list sorted by le: the new element goes after
every element it ties with, as in Python's stable sort. -/
def insertLe {α : Type} (le : α → α → Bool) (x : α) : List α → List α
  | [] => [x]
  | y :: ys => if le y x then y :: insertLe le x ys else x :: y :: ys

/-- Stable insertion sort by a boolean le relation, modelling Python's
list.sort with a key. -/
def sortLe {α : Type} (le : α → α → Bool) (l : List α) : List α :=
  l.foldl (fun acc x => insertLe le x acc) []

/-- Plan.generate_structure_history (scheduler.py lines 214-249): the event
dates are every a.t, every a.t + a.d, and 0.0, sorted ascending; at each
event the inactive components are those with a.t <= date < a.t + a.d. -/
def structureHistory (acts : List Activity) : List Event :=
  let dates := acts.map (fun a => a.t) ++ acts.map (fun a => a.t + a.d) ++ [(0 : ℚ)]
  let sorted := sortLe (fun d1 d2 => decide (d1 ≤ d2)) dates
  sorted.map (fun τ =>
    { date := τ,
      inactive := (acts.filter (fun a =>
        decide (a.t + a.d > τ) && decide (a.t ≤ τ))).map (fun a => a.component.idx) })

/-- Plan.generate_flow_history (scheduler.py lines 251-277): each event is
enriched with the max-flow value of its configuration. -/
def flowHistory (sys : SystemM) (acts : List Activity) : List FlowEvent :=
  (structureHistory acts).map (fun e =>
    { date := e.date, inactive := e.inactive, flow := sys.flowOf e.inactive })

/-- Summation loop of Plan.evaluate_flow_reduction (scheduler.py lines
294-299): over consecutive events, add (regular_flow - flow) times the
interval length. -/
def lfSum (regular : ℚ) : List FlowEvent → ℚ
  | e1 :: e2 :: rest => (regular - e1.flow) * (e2.date - e1.date) + lfSum regular (e2 :: rest)
  | _ => 0

/-- Plan.evaluate_flow_reduction (scheduler.py lines 279-299). -/
def evaluateFlowReduction (sys : SystemM) (acts : List Activity) : ℚ :=
  lfSum sys.regular_flow (flowHistory sys acts)

/-- Grouping-structure tensor X[i, j, r] of shape (N, N, R): component i in
slot j on resource r.  The values are naturals as in the numpy int array. -/
structure Tensor where
  N : ℕ
  R : ℕ
  x : ℕ → ℕ → ℕ → ℕ

/-- Projection np.sum(X, axis=-1) used by Plan.set_dates: membership of
component i in slot j, ignoring the resource plane. -/
def Tensor.slotMatrix (X : Tensor) (i j : ℕ) : ℕ :=
  ((List.range X.R).map (X.x i j)).sum

/-- Column loop of Plan.set_dates (scheduler.py lines 171-199): for each
slot with at least one member, build the Group of the activities i with
matrix entry exactly 1, run Newton on it, rewrite those activities' dates
to the optimum and add the group IC to the plan IC. -/
def setDatesGo (sys : SystemM) (X : Tensor) (fuel : ℕ) :
    List ℕ → List Activity → ℚ → Except NErr (List Activity × ℚ)
  | [], acts, ic => .ok (acts, ic)
  | j :: js, acts, ic =>
      if (List.range X.N).any (fun i => decide (X.slotMatrix i j ≠ 0)) then
        let memberIdx := (List.range sys.N).filter (fun i => decide (X.slotMatrix i j = 1))
        let g : Group := ⟨memberIdx.map (fun i => acts.getD i defaultActivity), none⟩
        match g.minimizeGo fuel with
        | .error e => .error e
        | .ok (_, xf, _) =>
            let acts2 := acts.mapIdx (fun i a =>
              if memberIdx.contains i then { a with t := xf } else a)
            setDatesGo sys X fuel js acts2 (ic + g.H xf)
      else setDatesGo sys X fuel js acts ic

/-- Plan (scheduler.Plan): activity list, system, optional grouping
structure, and the two scores IC and LF. -/
structure Plan where
  activities : List Activity
  system : SystemM
  grouping_structure : Option Tensor
  IC : ℚ
  LF : ℚ

/-- Plan.N.  Modelled from the spec: moga.py reads plan.N but
scheduler.Plan never sets it; the spec fixes N as the system's component
count (the length of the activity list). -/
def Plan.N (p : Plan) : ℕ := p.system.N

/-- Plan.__init__ (scheduler.py lines 120-133): LF is evaluated from the
given dates; when a grouping structure is present, set_dates rewrites the
dates and the IC, and LF is evaluated again on the new dates. -/
def mkPlan (acts : List Activity) (sys : SystemM) (gs : Option Tensor) (fuel : ℕ) :
    Except NErr Plan :=
  match gs with
  | none =>
      .ok { activities := acts, system := sys, grouping_structure := none,
            IC := 0, LF := evaluateFlowReduction sys acts }
  | some X =>
      match setDatesGo sys X fuel (List.range X.N) acts 0 with
      | .error e => .error e
      | .ok (acts2, ic) =>
          .ok { activities := acts2, system := sys, grouping_structure := some X,
                IC := ic, LF := evaluateFlowReduction sys acts2 }

/-- Individual (moga.py lines 12-36): a plan, its score vector
(LF, IC), the NSGA-II rank (0 at construction) and the crowding distance
(0 at construction; plus infinity is representable since the endpoints of
a front receive it). -/
structure Individual where
  plan : Plan
  score : ℚ × ℚ
  rank : ℕ
  crowding_distance : WithTop ℚ

/-- Individual.__init__ (moga.py lines 21-27): score := (plan.LF, plan.IC),
rank := 0, crowding_distance := 0. -/
def mkIndividual (p : Plan) : Individual :=
  { plan := p, score := (p.LF, p.IC), rank := 0, crowding_distance := 0 }

/-- Default system for total indexing. -/
def defaultSystem : SystemM := ⟨0, 0, 0, fun _ => 0⟩

/-- Default plan for total indexing. -/
def defaultPlan : Plan := ⟨[], defaultSystem, none, 0, 0⟩

/-- Default individual for total indexing. -/
def defaultIndividual : Individual := mkIndividual defaultPlan

/-- Dominance test of the fast non-dominated sort (moga.py line 294):
p dominates q iff both score components of p are strictly below those of
q. -/
def dominatesB (p q : Individual) : Bool :=
  decide (p.score.1 < q.score.1) && decide (p.score.2 < q.score.2)

/-- Indices (in population order) of the individuals dominated by the
individual at index p: the list dominatedSolutions built by the inner q
loop of the sort (moga.py lines 293-296). -/
def sIdx (pop : List Individual) (p : ℕ) : List ℕ :=
  (List.range pop.length).filter (fun q =>
    dominatesB (pop.getD p defaultIndividual) (pop.getD q defaultIndividual))

/-- Dominator counter of the individual at index q after the full pairwise
pass (moga.py lines 297-299): the number of individuals that dominate q.
Kept as an integer because the Python counter is decremented below the
point where it is tested against zero. -/
def domCount (pop : List Individual) (q : ℕ) : ℤ :=
  (((List.range pop.length).filter (fun p =>
    dominatesB (pop.getD p defaultIndividual) (pop.getD q defaultIndividual))).length : ℤ)

/-- Processing of one ranked individual p inside the front loop (moga.py
lines 306-311): decrement the counter of each q in p's dominated list, and
append q to the next front exactly when its counter reaches zero. -/
def frontStep (pop : List Individual) (st : (ℕ → ℤ) × List ℕ) (p : ℕ) : (ℕ → ℤ) × List ℕ :=
  (sIdx pop p).foldl (fun st q =>
    let cq := st.1 q - 1
    (Function.update st.1 q cq, if cq = 0 then st.2 ++ [q] else st.2)) st

/-- One iteration of the while loop of the sort: process every p of the
current front, collecting the next front. -/
def processFront (pop : List Individual) (F : List ℕ) (c : ℕ → ℤ) : (ℕ → ℤ) × List ℕ :=
  F.foldl (frontStep pop) (c, [])

/-- While loop of the sort (moga.py lines 303-315): emit fronts while the
current one is non-empty; the trailing empty front is dropped, as by the
del on line 314-315.  The fuel is an upper bound on the number of
iterations; the initial call passes population size + 1, which the
partition theorem shows is never exhausted. -/
def frontiersGo (pop : List Individual) : ℕ → (ℕ → ℤ) → List ℕ → List (List ℕ)
  | 0, _, _ => []
  | fuel + 1, c, F =>
      if F.isEmpty then []
      else
        let st := processFront pop F c
        F :: frontiersGo pop fuel st.1 st.2

/-- MOGA._fast_non_dominated_sort (moga.py lines 274-316), on population
indices: counters from the pairwise pass, first front = zero-counter
individuals in population order, then the front loop.  This also models
the call fast_non_dominated_sort in MOGA.run: that name is absent from
src/ and the spec (section 9) fixes the same algorithm as the contract. -/
def fastNonDominatedSortIdx (pop : List Individual) : List (List ℕ) :=
  frontiersGo pop (pop.length + 1) (fun q => domCount pop q)
    ((List.range pop.length).filter (fun q => decide (domCount pop q = 0)))

/-- Fronts of Individuals with their ranks as assigned by the sort: front
0 gets rank 1 (moga.py line 301), front i+1 gets rank i+2 (line 310). -/
def fastNonDominatedSort (pop : List Individual) : List (List Individual) :=
  (List.enum (fastNonDominatedSortIdx pop)).map (fun kf =>
    kf.2.map (fun i => { pop.getD i defaultIndividual with rank := kf.1 + 1 }))

/-- Crowding distances of one objective pass.  Modelled from the spec
(section 4.7): MOGA._crowding_distance is called by MOGA.run but is absent
from src/.  Sort the front ascending by the objective, give the two
endpoints distance plus infinity, and add to each interior individual the
neighbour gap normalized by the front range, with contribution 0 when the
range is 0. -/
def cdObjective (f : List Individual) (key : Individual → ℚ) (d : ℕ → WithTop ℚ) :
    ℕ → WithTop ℚ :=
  let m := f.length
  let ord := sortLe (fun i j =>
    decide (key (f.getD i defaultIndividual) ≤ key (f.getD j defaultIndividual)))
    (List.range m)
  let valAt := fun p => key (f.getD (ord.getD p 0) defaultIndividual)
  let rng := valAt (m - 1) - valAt 0
  let d1 := Function.update (Function.update d (ord.headD 0) ⊤) (ord.getLastD 0) ⊤
  (List.range m).foldl (fun d p =>
    if p = 0 ∨ p = m - 1 then d
    else
      Function.update d (ord.getD p 0)
        (d (ord.getD p 0) +
          ((if rng = 0 then 0 else (valAt (p + 1) - valAt (p - 1)) / rng : ℚ) : WithTop ℚ))) d1

/-- Crowding-distance assignment and descending sort of a front.  Modelled
from the spec (section 4.7): distances start at 0, one pass per objective
in the order (LF, IC), and the front is returned sorted by crowding
distance descending (stable, so ties keep population order). -/
def crowdingDistanceAssign (f : List Individual) : List Individual :=
  let d1 := cdObjective f (fun ind => ind.score.1) (fun _ => 0)
  let d2 := cdObjective f (fun ind => ind.score.2) d1
  let withD := (List.enum f).map (fun kx => { kx.2 with crowding_distance := d2 kx.1 })
  sortLe (fun a b => decide (b.crowding_distance ≤ a.crowding_distance)) withD

/-- Truncation loop of MOGA.run (moga.py lines 127-134): iterate the
fronts in order; a front that fits entirely is appended whole, otherwise
its prefix fills the population to exactly init_pop_size and the loop
breaks. -/
def buildNextPopulation (n : ℕ) : List (List Individual) → List Individual → List Individual
  | [], P => P
  | f :: fs, P =>
      let f2 := crowdingDistanceAssign f
      if P.length + f2.length < n then buildNextPopulation n fs (P ++ f2)
      else P ++ f2.take (n - P.length)

/-- Oracle model of numpy's random state: a stream of naturals consumed by
randint and choice, a stream of rationals consumed by rand, and the two
cursors. -/
structure Rng where
  ints : ℕ → ℕ
  floats : ℕ → ℚ
  i : ℕ
  f : ℕ

/-- np.random.randint(k): an arbitrary value below k from the oracle; on
k = 0 numpy raises ValueError, modelled by none. -/
def Rng.randint (r : Rng) (k : ℕ) : Option (ℕ × Rng) :=
  if k = 0 then none else some (r.ints r.i % k, { r with i := r.i + 1 })

/-- np.random.rand(): the next rational of the float stream. -/
def Rng.rand (r : Rng) : ℚ × Rng := (r.floats r.f, { r with f := r.f + 1 })

/-- np.random.choice on a list of naturals: an arbitrary element chosen by
the oracle; on an empty list numpy raises ValueError, modelled by none. -/
def Rng.choiceNat (r : Rng) (l : List ℕ) : Option (ℕ × Rng) :=
  match r.randint l.length with
  | none => none
  | some (j, r2) => some (l.getD j 0, r2)

/-- Component loop of Individual.mutate (moga.py lines 45-71), threading
the tensor and the random state.  For each component i, with probability
p_mutation: g_id is flatnonzero(np.sum(x[i,:,:], axis=0))[0] - axis 0 of
the (slot, resource) slice collapses the slot axis, so g_id is the first
resource column used by row i (an IndexError on an all-zero row is
modelled by none); the candidate slots g are the j different from g_id
whose total assignment is strictly below the resource count; f keeps the
candidates whose members plus component i form a feasible Group; then a
slot is drawn from f by np.random.choice (ValueError on empty f: none), a
resource is drawn, and row i of the tensor is replaced by the fresh
allele. -/
def mutateGo (plan : Plan) (p_mutation : ℚ) :
    List ℕ → Tensor → Rng → Option (Tensor × Rng)
  | [], X, rng => some (X, rng)
  | i :: rest, X, rng =>
      let vr := rng.rand
      if vr.1 < p_mutation then
        match (List.range X.R).find? (fun r =>
          decide (((List.range X.N).map (fun j => X.x i j r)).sum ≠ 0)) with
        | none => none
        | some g_id =>
            let g := (List.range X.N).filter (fun j =>
              decide (j ≠ g_id) &&
              decide ((((List.range X.N).map (fun i2 => X.slotMatrix i2 j)).sum : ℕ)
                < plan.system.resources))
            let f := g.filter (fun j =>
              let memberIdx := (List.range X.N).filter (fun i2 =>
                decide (X.slotMatrix i2 j ≠ 0))
              let gact : Group :=
                ⟨memberIdx.map (fun c => plan.activities.getD c defaultActivity) ++
                  [plan.activities.getD i defaultActivity], none⟩
              decide (gact.is_feasible = some true))
            match vr.2.choiceNat f with
            | none => none
            | some (j2, rng2) =>
                match rng2.randint plan.system.resources with
                | none => none
                | some (r2, rng3) =>
                    let X2 : Tensor :=
                      { X with x := fun i2 j r =>
                          if i2 = i then (if j = j2 ∧ r = r2 then 1 else 0)
                          else X.x i2 j r }
                    mutateGo plan p_mutation rest X2 rng3
      else mutateGo plan p_mutation rest X rng

/-- Individual.mutate (moga.py lines 38-79): deep-copy the grouping
structure (reading it from a plan built without one is an AttributeError,
modelled by none), run the component loop, and build a fresh Individual
from a fresh Plan over the mutated tensor. -/
def Individual.mutate (ind : Individual) (p_mutation : ℚ) (rng : Rng) (fuel : ℕ) :
    Option (Individual × Rng) :=
  match ind.plan.grouping_structure with
  | none => none
  | some X =>
      match mutateGo ind.plan p_mutation (List.range X.N) X rng with
      | none => none
      | some (X2, rng2) =>
          match mkPlan ind.plan.activities ind.plan.system (some X2) fuel with
          | .error _ => none
          | .ok plan2 => some (mkIndividual plan2, rng2)

/-- Inner while-True loop of MOGA.generate_individual (moga.py lines
166-196) for one component i: sample a candidate slot from Q, tentatively
assign, check the date-range compatibility of the slot's members, commit
on success (removing the slot from R when it reaches the resource count),
otherwise delete the candidate and retry.  numpy raises on an empty Q
(randint(0)); the fuel |Q| + 1 given by the caller reaches either outcome. -/
def genSlotGo (acts : List Activity) (n resources i : ℕ) :
    ℕ → (ℕ → ℕ → ℕ) → List ℕ → List ℕ → Rng → Option ((ℕ → ℕ → ℕ) × List ℕ × Rng)
  | 0, _, _, _, _ => none
  | fuel + 1, S, R, Q, rng =>
      match rng.randint Q.length with
      | none => none
      | some (j, rng1) =>
          let slot := Q.getD j 0
          let S1 := fun i2 j2 => if i2 = i ∧ j2 = slot then 1 else S i2 j2
          let members := (List.enum acts).filter (fun kc => decide (S1 kc.1 slot = 1))
          match listMax (members.map (fun kc => kc.2.t + kc.2.d)),
                listMin (members.map (fun kc => kc.2.t)) with
          | some maxEnd, some minBegin =>
              if maxEnd ≥ minBegin then
                let R2 := if ((List.range n).map (fun k => S1 k slot)).sum ≥ resources
                  then R.erase slot else R
                some (S1, R2, rng1)
              else genSlotGo acts n resources i fuel S R (Q.eraseIdx j) rng1
          | _, _ => none

/-- MOGA.generate_individual (moga.py lines 139-197): components are
assigned in order to slots drawn from the remaining-capacity list R,
which starts as range N. -/
def generateIndividualGo (acts : List Activity) (n resources : ℕ) :
    List ℕ → (ℕ → ℕ → ℕ) → List ℕ → Rng → Option ((ℕ → ℕ → ℕ) × Rng)
  | [], S, _, rng => some (S, rng)
  | i :: rest, S, R, rng =>
      match genSlotGo acts n resources i (R.length + 1) S R R rng with
      | none => none
      | some (S2, R2, rng2) => generateIndividualGo acts n resources rest S2 R2 rng2

/-- MOGA.generate_individual_with_resources (moga.py lines 199-208): lift
the N x N slot matrix to the (N, N, R) tensor by drawing one resource
plane per row. -/
def withResourcesGo (n resources : ℕ) (S : ℕ → ℕ → ℕ) :
    List ℕ → (ℕ → ℕ) → Rng → Option (Tensor × Rng)
  | [], rr, rng => some (⟨n, resources, fun i j r => if r = rr i then S i j else 0⟩, rng)
  | i :: rest, rr, rng =>
      match rng.randint resources with
      | none => none
      | some (r, rng1) => withResourcesGo n resources S rest (Function.update rr i r) rng1

/-- One random feasible individual: generate_individual followed by the
resource lifting. -/
def generateOne (acts : List Activity) (n resources : ℕ) (rng : Rng) :
    Option (Tensor × Rng) :=
  match generateIndividualGo acts n resources (List.range n) (fun _ _ => 0) (List.range n) rng with
  | none => none
  | some (S, rng1) => withResourcesGo n resources S (List.range n) (fun _ => 0) rng1

/-- Resource draws of the injected singleton solution (moga.py lines
238-241): one resource per component. -/
def singletonDrawsGo (resources : ℕ) : List ℕ → (ℕ → ℕ) → Rng → Option ((ℕ → ℕ) × Rng)
  | [], rr, rng => some (rr, rng)
  | i :: rest, rr, rng =>
      match rng.randint resources with
      | none => none
      | some (r, rng1) => singletonDrawsGo resources rest (Function.update rr i r) rng1

/-- Random part of MOGA.generate_initial_population: one individual per
seed, built from a random feasible tensor through a fresh Plan. -/
def randomPartGo (plan0 : Plan) (fuel : ℕ) :
    List ℕ → List Individual → Rng → Option (List Individual × Rng)
  | [], acc, rng => some (acc, rng)
  | _ :: rest, acc, rng =>
      match generateOne plan0.activities plan0.N plan0.system.resources rng with
      | none => none
      | some (X, rng1) =>
          match mkPlan plan0.activities plan0.system (some X) fuel with
          | .error _ => none
          | .ok p => randomPartGo plan0 fuel rest (acc ++ [mkIndividual p]) rng1

/-- MOGA.generate_initial_population (moga.py lines 210-251), sequential
branch: init_pop_size - 1 random feasible individuals, then the injected
solution in which every component is alone in its own slot. -/
def generateInitialPopulation (plan0 : Plan) (initPop fuel : ℕ) (rng : Rng) :
    Option (List Individual × Rng) :=
  let n := plan0.N
  let resources := plan0.system.resources
  match randomPartGo plan0 fuel (List.range (initPop - 1)) [] rng with
  | none => none
  | some (pop, rng1) =>
      match singletonDrawsGo resources (List.range n) (fun _ => 0) rng1 with
      | none => none
      | some (rr, rng2) =>
          let X : Tensor := ⟨n, resources, fun i j r => if i = j ∧ r = rr i then 1 else 0⟩
          match mkPlan plan0.activities plan0.system (some X) fuel with
          | .error _ => none
          | .ok p => some (pop ++ [mkIndividual p], rng2)

/-- MOGA.mutation (moga.py lines 253-272), sequential branch: mutate every
parent in order, threading the random state. -/
def mutatePopulation (p_mutation : ℚ) (fuel : ℕ) :
    List Individual → Rng → Option (List Individual × Rng)
  | [], rng => some ([], rng)
  | ind :: rest, rng =>
      match ind.mutate p_mutation rng fuel with
      | none => none
      | some (ind2, rng2) =>
          match mutatePopulation p_mutation fuel rest rng2 with
          | none => none
          | some (offspring, rng3) => some (ind2 :: offspring, rng3)

/-- Hyperparameters of the MOGA constructor (moga.py lines 96-109). -/
structure MOGACfg where
  init_pop_size : ℕ
  p_mutation : ℚ
  n_generations : ℕ

/-- Generation loop of MOGA.run (moga.py lines 120-137): offspring by
mutation, fast non-dominated sort of P + Q, truncation with crowding
distance, the assert on the new population size (its failure is modelled
by none), and the append to population_history. -/
def mogaRunGo (cfg : MOGACfg) (fuel : ℕ) :
    ℕ → List Individual → List (List Individual) → Rng →
    Option (List (List Individual) × Rng)
  | 0, _, hist, rng => some (hist, rng)
  | g + 1, P, hist, rng =>
      match mutatePopulation cfg.p_mutation fuel P rng with
      | none => none
      | some (Q, rng1) =>
          let fronts := fastNonDominatedSort (P ++ Q)
          let P2 := buildNextPopulation cfg.init_pop_size fronts []
          if P2.length = cfg.init_pop_size then
            mogaRunGo cfg fuel g P2 (hist ++ [P2]) rng1
          else none

/-- MOGA.run (moga.py lines 111-137): generate the initial population,
record it, and iterate n_generations times. -/
def mogaRun (cfg : MOGACfg) (plan0 : Plan) (fuel : ℕ) (rng : Rng) :
    Option (List (List Individual)) :=
  match generateInitialPopulation plan0 cfg.init_pop_size fuel rng with
  | none => none
  | some (P0, rng1) =>
      match mogaRunGo cfg fuel cfg.n_generations P0 [P0] rng1 with
      | none => none
      | some (hist, _) => some hist

/-- Dominance relation on population indices, as read by the sort. -/
def DomRel (pop : List Individual) (p q : ℕ) : Prop :=
  dominatesB (pop.getD p defaultIndividual) (pop.getD q defaultIndividual) = true

/-- Closed form of the individuals appended while one front is processed:
for each ranked p in order, the q of its dominated list whose counter
stands at exactly 1 (and therefore reaches 0) are appended; the counters
seen by later p are the decremented ones.  processFront is proved equal to
this below. -/
def newAppends (pop : List Individual) (c : ℕ → ℤ) : List ℕ → List ℕ
  | [] => []
  | p :: F =>
      (sIdx pop p).filter (fun q => decide (c q = 1)) ++
        newAppends pop (fun q => if q ∈ sIdx pop p then c q - 1 else c q) F

/-- Signed differences x[k] - x[k+1] of consecutive Newton iterates: the
values assigned to diff on line 102 of scheduler.py. -/
def stepDiffs (tr : List ℚ) : List ℚ :=
  List.zipWith (fun a b => a - b) tr tr.tail

/-- Component making the first Newton step increase the iterate by 1:
dh(0) = cc / alpha^beta * x_star * beta - phi_star = 2 - 4 = -2 and
ddh(0) = 2, so the step from x0 = 0 goes up to 1. -/
def c3exComp : Component := ⟨0, 1, 1, 2, 1, 4, 0⟩

/-- Group witnessing that the stopping test uses the signed difference. -/
def c3exGroup : Group := ⟨[⟨c3exComp, 0, 0⟩], none⟩

/-- Component whose Newton iteration reaches a point with ddH = 0 at the
second step: from x0 = 0 the first step goes to -1, where
ddh(-1) = 6 * (1 + (-1)) = 0. -/
def c4exComp : Component := ⟨0, 1, 1, 3, 1, -3, 0⟩

/-- Group on which Group.minimize divides by zero instead of reaching any
iteration cap or falling back to the mean date. -/
def c4exGroup : Group := ⟨[⟨c4exComp, 0, 0⟩], none⟩

/-- Component already at its optimum: dh(0) = 2 - 2 = 0, so Newton
converges immediately. -/
def convComp : Component := ⟨0, 1, 1, 2, 1, 2, 0⟩

/-- Group converging in one Newton step, used to witness the amended
stopping-rule theorem. -/
def convGroup : Group := ⟨[⟨convComp, 0, 0⟩], none⟩

/-- Empty group: Python's max over no activities raises ValueError inside
is_feasible. -/
def emptyGroup : Group := ⟨[], none⟩

/-- Single zero-duration activity used by the flow-reduction witnesses. -/
def zeroDurAct : Activity := ⟨convComp, 0, 0⟩

/-- Concrete system with one component whose removal does not change the
flow value reported by the oracle. -/
def oneCompSystem : SystemM := ⟨1, 1, 0, fun _ => 0⟩

/-- Random oracle whose integer draws are all 0 and whose float draws are
all 1, so no mutation fires for any p_mutation at most 1. -/
def witRng : Rng := ⟨fun _ => 0, fun _ => 1, 0, 0⟩

/-- Concrete maintenance plan handed to the MOGA constructor: one
zero-duration activity on the one-component system. -/
def witPlan0 : Plan :=
  match mkPlan [zeroDurAct] oneCompSystem none 150 with
  | .ok p => p
  | .error _ => defaultPlan

/-- Hyperparameters: population 1, mutation probability 0, one
generation. -/
def witCfg1 : MOGACfg := ⟨1, 0, 1⟩

/-- Hyperparameters: population 1, mutation probability 0, zero
generations. -/
def witCfg0 : MOGACfg := ⟨1, 0, 0⟩

/-- History of the concrete one-generation run. -/
def witHist1 : List (List Individual) :=
  (mogaRun witCfg1 witPlan0 150 witRng).getD []

/-- Singleton grouping tensor for the one-component system. -/
def c2Tensor : Tensor :=
  ⟨1, 1, fun i j r => if i = 0 ∧ j = 0 ∧ r = 0 then 1 else 0⟩

/-- Plan over the singleton tensor, input of the mutation that finds no
candidate slot. -/
def c2Plan : Plan :=
  match mkPlan [zeroDurAct] oneCompSystem (some c2Tensor) 150 with
  | .ok p => p
  | .error _ => defaultPlan

/-- Individual whose single component has no slot other than its own. -/
def c2Ind : Individual := mkIndividual c2Plan

/-- Random oracle whose float draws are all 0, so the mutation fires. -/
def c2Rng : Rng := ⟨fun _ => 0, fun _ => 0, 0, 0⟩

end NetFlowOpt

namespace NetFlowOpt

/-! Lemmas about the Newton loop. -/

/-- Unfolding of newtonGo when the while condition holds and the update is
defined. -/
theorem newtonGo_step (dH ddH : ℚ → ℚ) (fuel : ℕ) (acc : List ℚ) (x d : ℚ)
    (h1 : d > 1 / 1000) (h2 : ¬ ddH x = 0) :
    newtonGo dH ddH (fuel + 1) acc x d =
      newtonGo dH ddH fuel (acc ++ [x - dH x / ddH x]) (x - dH x / ddH x)
        (x - (x - dH x / ddH x)) := by
  simp only [newtonGo]
  rw [if_pos h1, if_neg h2]

/-- Unfolding of newtonGo at a zero second derivative: the source raises
ZeroDivisionError. -/
theorem newtonGo_divZero (dH ddH : ℚ → ℚ) (fuel : ℕ) (acc : List ℚ) (x d : ℚ)
    (h1 : d > 1 / 1000) (h2 : ddH x = 0) :
    newtonGo dH ddH (fuel + 1) acc x d = .error .divZero := by
  simp only [newtonGo]
  rw [if_pos h1, if_pos h2]

/-- Unfolding of newtonGo when the while condition fails. -/
theorem newtonGo_stop (dH ddH : ℚ → ℚ) (fuel : ℕ) (acc : List ℚ) (x d : ℚ)
    (h1 : ¬ d > 1 / 1000) :
    newtonGo dH ddH (fuel + 1) acc x d = .ok (acc, x) := by
  simp only [newtonGo]
  rw [if_neg h1]

/-- Behaviour of a successful newtonGo call: either the entry test already
failed and nothing was appended, or at least one iterate was appended, the
result is the last appended iterate, every tested signed difference before
the last was above the threshold and the last one is at most the
threshold. -/
theorem newtonGo_ok_spec (dH ddH : ℚ → ℚ) :
    ∀ (fuel : ℕ) (acc : List ℚ) (x d : ℚ) (tr : List ℚ) (xf : ℚ),
      newtonGo dH ddH fuel acc x d = .ok (tr, xf) →
      (¬ d > 1 / 1000 ∧ tr = acc ∧ xf = x) ∨
      (d > 1 / 1000 ∧ ∃ ext, ext ≠ [] ∧ tr = acc ++ ext ∧ xf = ext.getLastD 0 ∧
        (stepDiffs (x :: ext)).getLastD 0 ≤ 1 / 1000 ∧
        ∀ y ∈ (stepDiffs (x :: ext)).dropLast, 1 / 1000 < y) := by
  intro fuel
  induction fuel with
  | zero => intro acc x d tr xf h; simp [newtonGo] at h
  | succ n ih =>
      intro acc x d tr xf h
      by_cases hd : d > 1 / 1000
      · right
        refine ⟨hd, ?_⟩
        by_cases hz : ddH x = 0
        · rw [newtonGo_divZero dH ddH n acc x d hd hz] at h; cases h
        · rw [newtonGo_step dH ddH n acc x d hd hz] at h
          rcases ih _ _ _ _ _ h with ⟨hstop, htr, hxf⟩ | ⟨hgo, ext, hne, htr, hxf, hlast, hrest⟩
          · refine ⟨[x - dH x / ddH x], by simp, by simpa using htr, by simpa using hxf, ?_, ?_⟩
            · simpa [stepDiffs] using not_lt.mp hstop
            · simp [stepDiffs]
          · refine ⟨(x - dH x / ddH x) :: ext, by simp, by simpa using htr,
              by simpa [List.getLastD_cons, List.getLastD_eq_getLast?] using
                (by rw [hxf]; cases ext with
                    | nil => exact absurd rfl hne
                    | cons a l => simp [List.getLastD_cons]), ?_, ?_⟩
            · have : stepDiffs (x :: (x - dH x / ddH x) :: ext) =
                  (x - (x - dH x / ddH x)) :: stepDiffs ((x - dH x / ddH x) :: ext) := by
                simp [stepDiffs]
              rw [this]
              have hne2 : stepDiffs ((x - dH x / ddH x) :: ext) ≠ [] := by
                cases ext with
                | nil => exact absurd rfl hne
                | cons a l => simp [stepDiffs]
              rw [List.getLastD_cons]
              rcases List.exists_cons_of_ne_nil hne2 with ⟨y, ys, hys⟩
              rw [hys] at hlast ⊢
              simpa [List.getLastD_cons] using hlast
            · intro y hy
              have hsplit : stepDiffs (x :: (x - dH x / ddH x) :: ext) =
                  (x - (x - dH x / ddH x)) :: stepDiffs ((x - dH x / ddH x) :: ext) := by
                simp [stepDiffs]
              rw [hsplit] at hy
              have hne2 : stepDiffs ((x - dH x / ddH x) :: ext) ≠ [] := by
                cases ext with
                | nil => exact absurd rfl hne
                | cons a l => simp [stepDiffs]
              rw [List.dropLast_cons_of_ne_nil hne2] at hy
              rcases List.mem_cons.1 hy with h1 | h1
              · subst h1; exact hgo
              · exact hrest y h1
      · left
        rw [newtonGo_stop dH ddH n acc x d hd] at h
        injection h with h'
        injection h' with h1 h2
        exact ⟨hd, h1.symm ▸ rfl, h2.symm ▸ rfl⟩

/-- Default value of getLastD is irrelevant on a non-empty list. -/
theorem getLastD_of_ne_nil {α : Type} (l : List α) (hl : l ≠ []) (a b : α) :
    l.getLastD a = l.getLastD b := by
  induction l with
  | nil => exact absurd rfl hl
  | cons x xs _ =>
      cases xs with
      | nil => rfl
      | cons y ys => simp only [List.getLastD_cons]

/-- CLAIM C3 (amended): Group.minimize iterates Newton from the mean of the
member due dates and stops exactly when the signed difference
x_k - x_{k+1} is at most 10^-3 (not the absolute difference); on a normal
return the group IC is H at the final iterate and every member activity's
t is rewritten to that iterate. -/
theorem C3_minimize_signed_stop (g : Group) (fuel : ℕ) (tr : List ℚ) (xf : ℚ)
    (g2 : Group) (h : g.minimizeGo fuel = .ok (tr, xf, g2)) :
    2 ≤ tr.length ∧
    tr.headD 0 = (g.activities.map (fun a => a.t)).sum / (g.activities.length : ℚ) ∧
    xf = tr.getLastD 0 ∧
    (stepDiffs tr).getLastD 0 ≤ 1 / 1000 ∧
    ((stepDiffs tr).dropLast.all (fun y => decide (1 / 1000 < y)) = true) ∧
    g2.IC = some (g.H xf) ∧
    g2.activities = g.activities.map (fun a => { a with t := xf }) := by
  simp only [Group.minimizeGo] at h
  by_cases h0 : g.activities.length = 0
  · rw [if_pos h0] at h; cases h
  · rw [if_neg h0] at h
    rcases heq : newtonGo g.dH g.ddH fuel
        [(g.activities.map (fun a => a.t)).sum / (g.activities.length : ℚ)]
        ((g.activities.map (fun a => a.t)).sum / (g.activities.length : ℚ)) 100000
      with e | ⟨tr0, xf0⟩
    · rw [heq] at h; cases h
    · rw [heq] at h
      injection h with h'
      injection h' with h1 h2
      injection h2 with h2a h2b
      subst h1
      subst h2a
      subst h2b
      rcases newtonGo_ok_spec g.dH g.ddH fuel _ _ _ _ _ heq with
        ⟨hstop, _, _⟩ | ⟨_, ext, hne, htr, hxf, hlast, hrest⟩
      · exact absurd (by norm_num) hstop
      · have htr' : tr0 = ((g.activities.map (fun a => a.t)).sum /
            (g.activities.length : ℚ)) :: ext := by simpa using htr
        subst htr'
        refine ⟨?_, by simp, ?_, ?_, ?_, rfl, rfl⟩
        · have h1 : 1 ≤ ext.length := List.length_pos.2 hne
          simp only [List.length_cons]
          omega
        · rw [hxf]
          simp only [List.getLastD_cons]
          exact (getLastD_of_ne_nil ext hne
            ((g.activities.map (fun a => a.t)).sum / (g.activities.length : ℚ)) 0).symm
        · exact hlast
        · rw [List.all_eq_true]
          intro y hy
          exact decide_eq_true (hrest y hy)

/-- Witness for C3: a group that converges at once, evaluated through the
theorem. -/
theorem C3_minimize_signed_stop_witness :
    2 ≤ ([(0 : ℚ), 0]).length ∧
    ([(0 : ℚ), 0]).headD 0 =
      (convGroup.activities.map (fun a => a.t)).sum / (convGroup.activities.length : ℚ) ∧
    (0 : ℚ) = ([(0 : ℚ), 0]).getLastD 0 ∧
    (stepDiffs [(0 : ℚ), 0]).getLastD 0 ≤ 1 / 1000 ∧
    ((stepDiffs [(0 : ℚ), 0]).dropLast.all (fun y => decide (1 / 1000 < y)) = true) ∧
    (Group.mk [⟨convComp, 0, 0⟩] (some 0)).IC = some (convGroup.H 0) ∧
    (Group.mk [⟨convComp, 0, 0⟩] (some 0)).activities =
      convGroup.activities.map (fun a => { a with t := (0 : ℚ) }) :=
  C3_minimize_signed_stop convGroup 10 [0, 0] 0 ⟨[⟨convComp, 0, 0⟩], some 0⟩
    (by with_unfolding_all decide)

/-- Counterexample to C3 as stated: on this group the single Newton step
goes up from 0 to 1, the signed difference 0 - 1 is below the threshold
so the loop stops, although the absolute difference is 1, far above
10^-3.  The source then writes the date 1 and the (negative) IC. -/
theorem C3_stop_counterexample :
    c3exGroup.minimizeGo 150 =
      .ok ([0, 1], 1, ⟨[⟨c3exComp, 1, 0⟩], some (-1)⟩) ∧
    (0 : ℚ) - 1 ≤ 1 / 1000 ∧ 1 / 1000 < |(0 : ℚ) - 1| :=
  ⟨by with_unfolding_all decide, by norm_num, by norm_num⟩

/-- CLAIM C4 (amended): Group.minimize has no iteration cap: there is a
group on which, whatever iteration budget it is given (at least the two
steps it actually performs), the loop neither converges nor falls back to
the mean date but dies with the modelled ZeroDivisionError. -/
theorem C4_minimize_no_cap (fuel : ℕ) (h : 2 ≤ fuel) :
    c4exGroup.minimizeGo fuel = .error .divZero := by
  obtain ⟨k, rfl⟩ : ∃ k, fuel = k + 2 := ⟨fuel - 2, by omega⟩
  show c4exGroup.minimizeGo (k + 1 + 1) = .error .divZero
  simp only [Group.minimizeGo]
  rw [if_neg (by decide : ¬ (c4exGroup.activities.length = 0))]
  rw [(by with_unfolding_all decide :
    (c4exGroup.activities.map (fun a => a.t)).sum / (c4exGroup.activities.length : ℚ) = 0)]
  rw [newtonGo_step _ _ _ _ _ _ (by norm_num) (by with_unfolding_all decide)]
  rw [(by with_unfolding_all decide :
    (0 : ℚ) - Group.dH c4exGroup 0 / Group.ddH c4exGroup 0 = -1)]
  rw [newtonGo_divZero _ _ _ _ _ _ (by norm_num) (by with_unfolding_all decide)]

/-- Witness for C4 at the concrete budget 150. -/
theorem C4_minimize_no_cap_witness :
    2 ≤ 150 ∧ c4exGroup.minimizeGo 150 = .error .divZero :=
  ⟨by norm_num, C4_minimize_no_cap 150 (by norm_num)⟩

/-- Counterexample to C4 as stated: with an iteration budget beyond the
claimed cap of 100 the call still fails with a division by zero; it never
reports a warning nor returns the arithmetic-mean date (which for this
group would be 0). -/
theorem C4_no_cap_counterexample :
    c4exGroup.minimizeGo 101 = .error .divZero ∧
    (c4exGroup.activities.map (fun a => a.t)).sum / (c4exGroup.activities.length : ℚ) = 0 :=
  ⟨by with_unfolding_all decide, by with_unfolding_all decide⟩

/-- CLAIM C5: an Individual p dominates q iff both components of p's score
(LF, IC) are strictly smaller, so the relation read off by the sort is
irreflexive and antisymmetric, and equal scores never dominate. -/
theorem C5_dominance_strict :
    (∀ p q : Plan,
      dominatesB (mkIndividual p) (mkIndividual q) = true ↔ p.LF < q.LF ∧ p.IC < q.IC) ∧
    (∀ r : Individual, dominatesB r r = false) ∧
    (∀ r s : Individual, ¬ (dominatesB r s = true ∧ dominatesB s r = true)) := by
  refine ⟨fun p q => ?_, fun r => ?_, fun r s => ?_⟩
  · simp [dominatesB, mkIndividual]
  · simp [dominatesB]
  · rintro ⟨h1, h2⟩
    simp only [dominatesB, Bool.and_eq_true, decide_eq_true_eq] at h1 h2
    exact absurd h2.1 (not_lt.2 (le_of_lt h1.1))

/-- CLAIM C6 (amended): for every non-empty group, is_feasible returns
true iff every activity's t + x_star is at least the maximum over the
group of t - x_star. -/
theorem C6_is_feasible_nonempty (a0 : Activity) (l : List Activity) (ic : Option ℚ) :
    (Group.mk (a0 :: l) ic).is_feasible = some true ↔
      ∀ a ∈ a0 :: l,
        (l.map (fun b => b.t - b.component.x_star)).foldl max
          (a0.t - a0.component.x_star) ≤ a.t + a.component.x_star := by
  show some ((a0 :: l).all _) = some true ↔ _
  rw [Option.some_inj, List.all_eq_true]
  constructor
  · intro hall a ha
    have := hall a ha
    simpa [not_lt] using this
  · intro hall a ha
    simpa [not_lt] using hall a ha

/-- Counterexample to C6 as stated: on the empty group the right-hand side
of the claimed equivalence holds vacuously, but is_feasible does not
return true; Python's max raises ValueError there (modelled by none). -/
theorem C6_empty_counterexample :
    ¬ (emptyGroup.is_feasible = some true ↔
        ∀ a ∈ emptyGroup.activities, ∀ es,
          listMax (emptyGroup.activities.map (fun b => b.t - b.component.x_star)) = some es →
            es ≤ a.t + a.component.x_star) := by
  intro hiff
  have h : emptyGroup.is_feasible = some true := hiff.mpr (by simp [emptyGroup])
  simp [Group.is_feasible, emptyGroup, listMax] at h

/-- Witness for C6 on a concrete two-activity group. -/
theorem C6_is_feasible_nonempty_witness :
    (Group.mk [⟨convComp, 0, 0⟩, ⟨convComp, 1, 0⟩] none).is_feasible = some true ↔
      ∀ a ∈ [(⟨convComp, 0, 0⟩ : Activity), ⟨convComp, 1, 0⟩],
        (([(⟨convComp, 1, 0⟩ : Activity)]).map (fun b => b.t - b.component.x_star)).foldl max
          ((0 : ℚ) - convComp.x_star) ≤ a.t + a.component.x_star :=
  C6_is_feasible_nonempty ⟨convComp, 0, 0⟩ [⟨convComp, 1, 0⟩] none

/-- Sum loop of evaluate_flow_reduction over events whose flow all equal
the nominal flow. -/
theorem lfSum_const (regular : ℚ) :
    ∀ l : List FlowEvent, (∀ e ∈ l, e.flow = regular) → lfSum regular l = 0 := by
  intro l
  induction l with
  | nil => intro _; rfl
  | cons e rest ih =>
      intro hall
      cases rest with
      | nil => rfl
      | cons e2 r2 =>
          have he : e.flow = regular := hall e (by simp)
          have h2 : lfSum regular (e2 :: r2) = 0 := ih (fun x hx => hall x (by simp [hx]))
          simp [lfSum, he, h2]

/-- CLAIM C7: when every activity has duration 0 and regular_flow is the
max-flow of the full graph (no node removed), evaluate_flow_reduction is
exactly 0. -/
theorem C7_zero_duration_LF (sys : SystemM) (acts : List Activity)
    (hd : acts.all (fun a => decide (a.d = 0)) = true)
    (hreg : sys.regular_flow = sys.flowOf []) :
    evaluateFlowReduction sys acts = 0 := by
  rw [List.all_eq_true] at hd
  apply lfSum_const
  intro e he
  simp only [flowHistory, List.mem_map] at he
  obtain ⟨ev, hev, rfl⟩ := he
  simp only [structureHistory, List.mem_map] at hev
  obtain ⟨τ, _, rfl⟩ := hev
  have hfilter : acts.filter (fun a => decide (a.t + a.d > τ) && decide (a.t ≤ τ)) = [] := by
    rw [List.filter_eq_nil_iff]
    intro a ha
    have ha0 : a.d = 0 := of_decide_eq_true (hd a ha)
    simp only [Bool.and_eq_true, decide_eq_true_eq, not_and, ha0, add_zero]
    exact fun hgt => not_le.2 hgt
  simp [hfilter, hreg]

/-- Witness for C7 on a one-activity plan with zero duration. -/
theorem C7_zero_duration_LF_witness :
    ([zeroDurAct].all (fun a => decide (a.d = 0)) = true) ∧
    oneCompSystem.regular_flow = oneCompSystem.flowOf [] ∧
    evaluateFlowReduction oneCompSystem [zeroDurAct] = 0 :=
  ⟨by decide, rfl, C7_zero_duration_LF oneCompSystem [zeroDurAct] (by decide) rfl⟩

/-- CLAIM C9: constructing a Plan without a grouping structure computes LF
from the given dates, leaves the activity list (hence every date)
untouched, and leaves IC equal to 0. -/
theorem C9_plan_without_grouping (acts : List Activity) (sys : SystemM) (fuel : ℕ) :
    mkPlan acts sys none fuel =
      .ok { activities := acts, system := sys, grouping_structure := none,
            IC := 0, LF := evaluateFlowReduction sys acts } := rfl

/-! Partition property of the fast non-dominated sort. -/

/-- Strict Pareto dominance is transitive. -/
theorem dominatesB_trans {a b c : Individual}
    (h1 : dominatesB a b = true) (h2 : dominatesB b c = true) :
    dominatesB a c = true := by
  simp only [dominatesB, Bool.and_eq_true, decide_eq_true_eq] at h1 h2 ⊢
  exact ⟨lt_trans h1.1 h2.1, lt_trans h1.2 h2.2⟩

/-- Membership in a dominated-solutions list. -/
theorem mem_sIdx {pop : List Individual} {p q : ℕ} :
    q ∈ sIdx pop p ↔ q < pop.length ∧ DomRel pop p q := by
  simp [sIdx, DomRel, List.mem_filter, List.mem_range]

/-- Dominated-solutions lists have no duplicates. -/
theorem sIdx_nodup (pop : List Individual) (p : ℕ) : (sIdx pop p).Nodup :=
  (List.nodup_range _).filter _

/-- Counting with countP on a duplicate-free list of naturals agrees with
the card of the corresponding Finset filter. -/
theorem countP_eq_card_filter_toFinset (l : List ℕ) (hl : l.Nodup) (P : ℕ → Prop)
    [DecidablePred P] :
    l.countP (fun a => decide (P a)) = (l.toFinset.filter P).card := by
  induction l with
  | nil => simp
  | cons x xs ih =>
      have hx : x ∉ xs := (List.nodup_cons.1 hl).1
      have ihx := ih (List.nodup_cons.1 hl).2
      by_cases hpx : P x
      · rw [List.countP_cons_of_pos _ _ (by simpa using hpx), List.toFinset_cons,
          Finset.filter_insert, if_pos hpx,
          Finset.card_insert_of_not_mem (by simp [List.mem_toFinset, hx]), ihx]
      · rw [List.countP_cons_of_neg _ _ (by simpa using hpx), List.toFinset_cons,
          Finset.filter_insert, if_neg hpx, ihx]

/-- Closed form of the decrement-and-collect fold over one
dominated-solutions list (the inner q loop of the sort): each listed
counter drops by one, and the appended q are those whose counter stood at
exactly 1, in list order. -/
theorem foldDec_spec (L : List ℕ) (hL : L.Nodup) :
    ∀ (c : ℕ → ℤ) (Q : List ℕ),
      (L.foldl (fun st q =>
        let cq := st.1 q - 1
        (Function.update st.1 q cq, if cq = 0 then st.2 ++ [q] else st.2)) (c, Q)) =
      (fun q => if q ∈ L then c q - 1 else c q,
        Q ++ L.filter (fun q => decide (c q = 1))) := by
  induction L with
  | nil => intro c Q; simp
  | cons x xs ih =>
      intro c Q
      have hx : x ∉ xs := (List.nodup_cons.1 hL).1
      have ihx := ih (List.nodup_cons.1 hL).2
      rw [List.foldl_cons]
      simp only
      rw [ihx]
      rw [Prod.mk.injEq]
      refine ⟨?_, ?_⟩
      · funext q
        by_cases hq : q ∈ xs
        · have hqx : q ≠ x := fun h => hx (h ▸ hq)
          simp [hq, hqx, Function.update_noteq hqx]
        · by_cases hqx : q = x
          · subst hqx
            simp [hq, Function.update_same]
          · simp [hq, hqx, Function.update_noteq hqx]
      · have hfilter : xs.filter (fun q => decide (Function.update c x (c x - 1) q = 1)) =
            xs.filter (fun q => decide (c q = 1)) := by
          apply List.filter_congr
          intro q hq
          have hqx : q ≠ x := fun h => hx (h ▸ hq)
          rw [Function.update_noteq hqx]
        by_cases hcx : c x - 1 = 0
        · have hcx1 : c x = 1 := by omega
          rw [hcx] at hfilter
          simp [hcx, hfilter, hcx1, List.filter_cons]
        · have hcx1 : ¬ c x = 1 := by omega
          simp [hcx, hfilter, hcx1, List.filter_cons]

/-- Closed form of frontStep. -/
theorem frontStep_spec (pop : List Individual) (c : ℕ → ℤ) (Q : List ℕ) (p : ℕ) :
    frontStep pop (c, Q) p =
      (fun q => if q ∈ sIdx pop p then c q - 1 else c q,
        Q ++ (sIdx pop p).filter (fun q => decide (c q = 1))) :=
  foldDec_spec (sIdx pop p) (sIdx_nodup pop p) c Q

/-- Closed form of processFront in terms of newAppends: counters drop by
the number of processed dominators, and the next front is newAppends. -/
theorem processFront_spec (pop : List Individual) :
    ∀ (F : List ℕ) (c : ℕ → ℤ) (Q : List ℕ),
      F.foldl (frontStep pop) (c, Q) =
        (fun q => c q - (F.countP (fun p => decide (q ∈ sIdx pop p)) : ℤ),
          Q ++ newAppends pop c F) := by
  intro F
  induction F with
  | nil => intro c Q; simp [newAppends]
  | cons p F' ih =>
      intro c Q
      rw [List.foldl_cons, frontStep_spec, ih]
      rw [Prod.mk.injEq]
      refine ⟨?_, ?_⟩
      · funext q
        by_cases hq : q ∈ sIdx pop p
        · simp [hq, List.countP_cons]
          ring
        · simp [hq, List.countP_cons]
      · rw [newAppends, List.append_assoc]

/-- Individuals appended while processing a front are population indices. -/
theorem mem_newAppends_lt (pop : List Individual) :
    ∀ (F : List ℕ) (c : ℕ → ℤ) (q : ℕ), q ∈ newAppends pop c F → q < pop.length := by
  intro F
  induction F with
  | nil => intro c q h; simp [newAppends] at h
  | cons p F' ih =>
      intro c q h
      simp only [newAppends, List.mem_append] at h
      rcases h with h | h
      · exact (mem_sIdx.1 (List.mem_filter.1 h).1).1
      · exact ih _ q h

/-- The counter bound carries from a front to its tail with the
decremented counters. -/
theorem countP_tail_le (pop : List Individual) (p : ℕ) (F' : List ℕ) (c : ℕ → ℤ)
    (hb : ∀ q, (((p :: F').countP (fun r => decide (q ∈ sIdx pop r))) : ℤ) ≤ c q) :
    ∀ q, ((F'.countP (fun r => decide (q ∈ sIdx pop r))) : ℤ) ≤
      (if q ∈ sIdx pop p then c q - 1 else c q) := by
  intro q
  have hq := hb q
  rw [List.countP_cons] at hq
  by_cases hmem : q ∈ sIdx pop p
  · simp [hmem] at hq ⊢
    omega
  · simp [hmem] at hq ⊢
    omega

/-- Membership in newAppends: exactly the indices whose counter is
positive and falls to zero under the decrements of this front, provided no
counter is decremented below zero. -/
theorem mem_newAppends_iff (pop : List Individual) :
    ∀ (F : List ℕ) (c : ℕ → ℤ),
      (∀ q, ((F.countP (fun r => decide (q ∈ sIdx pop r))) : ℤ) ≤ c q) →
      ∀ q, q ∈ newAppends pop c F ↔
        0 < c q ∧ ((F.countP (fun r => decide (q ∈ sIdx pop r))) : ℤ) = c q := by
  intro F
  induction F with
  | nil =>
      intro c _ q
      simp only [newAppends, List.countP_nil, Nat.cast_zero]
      constructor
      · intro h; exact absurd h (List.not_mem_nil q)
      · rintro ⟨h1, h2⟩; omega
  | cons p F' ih =>
      intro c hb q
      have hb' := countP_tail_le pop p F' c hb
      simp only [newAppends, List.mem_append, List.mem_filter, decide_eq_true_eq]
      rw [ih _ hb' q]
      have hbq := hb q
      rw [List.countP_cons] at hbq ⊢
      by_cases hq : q ∈ sIdx pop p
      · simp [hq] at hbq ⊢
        omega
      · simp [hq] at hbq ⊢

/-- newAppends never lists an index twice: a counter reaches zero at most
once while a front is processed. -/
theorem newAppends_nodup (pop : List Individual) :
    ∀ (F : List ℕ) (c : ℕ → ℤ),
      (∀ q, ((F.countP (fun r => decide (q ∈ sIdx pop r))) : ℤ) ≤ c q) →
      (newAppends pop c F).Nodup := by
  intro F
  induction F with
  | nil => intro c _; simp [newAppends]
  | cons p F' ih =>
      intro c hb
      have hb' := countP_tail_le pop p F' c hb
      refine List.Nodup.append ((sIdx_nodup pop p).filter _) (ih _ hb') ?_
      rw [List.disjoint_left]
      intro q hqb hqr
      have h1 := List.mem_filter.1 hqb
      have hc1 : c q = 1 := of_decide_eq_true h1.2
      have h2 := (mem_newAppends_iff pop F' _ hb' q).1 hqr
      rw [if_pos h1.1] at h2
      omega

/-- Every non-empty finite set of population indices has a member that no
other member dominates (strict Pareto dominance has minimal elements). -/
theorem exists_undominated (pop : List Individual) :
    ∀ (n : ℕ) (Rem : Finset ℕ), Rem.card ≤ n → Rem.Nonempty →
      ∃ q ∈ Rem, ∀ p ∈ Rem,
        dominatesB (pop.getD p defaultIndividual) (pop.getD q defaultIndividual) = false := by
  intro n
  induction n with
  | zero =>
      intro Rem hcard hne
      rcases hne with ⟨q, hq⟩
      have := Finset.card_pos.2 ⟨q, hq⟩
      omega
  | succ n ih =>
      intro Rem hcard hne
      rcases hne with ⟨q0, hq0⟩
      by_cases hDm : (Rem.filter (fun p =>
          dominatesB (pop.getD p defaultIndividual) (pop.getD q0 defaultIndividual) = true)).Nonempty
      · set Dm := Rem.filter (fun p =>
          dominatesB (pop.getD p defaultIndividual) (pop.getD q0 defaultIndividual) = true) with hDmDef
        have hsub : Dm ⊆ Rem := Finset.filter_subset _ _
        have hq0notin : q0 ∉ Dm := by
          intro hmem
          have := (Finset.mem_filter.1 hmem).2
          simp [dominatesB] at this
        have hlt : Dm.card < Rem.card :=
          Finset.card_lt_card ⟨hsub, fun hsup => hq0notin (hsup hq0)⟩
        obtain ⟨q, hqDm, hmin⟩ := ih Dm (by omega) hDm
        refine ⟨q, hsub hqDm, fun p hp => ?_⟩
        by_contra hne2
        have hptrue : dominatesB (pop.getD p defaultIndividual) (pop.getD q defaultIndividual)
            = true := by
          cases hval : dominatesB (pop.getD p defaultIndividual) (pop.getD q defaultIndividual)
          · exact absurd hval hne2
          · rfl
        have hqq0 : dominatesB (pop.getD q defaultIndividual) (pop.getD q0 defaultIndividual)
            = true := (Finset.mem_filter.1 hqDm).2
        have hpDm : p ∈ Dm :=
          Finset.mem_filter.2 ⟨hp, dominatesB_trans hptrue hqq0⟩
        have := hmin p hpDm
        rw [this] at hptrue
        cases hptrue
      · refine ⟨q0, hq0, fun p hp => ?_⟩
        by_contra hne2
        have hptrue : dominatesB (pop.getD p defaultIndividual) (pop.getD q0 defaultIndividual)
            = true := by
          cases hval : dominatesB (pop.getD p defaultIndividual) (pop.getD q0 defaultIndividual)
          · exact absurd hval hne2
          · rfl
        exact hDm ⟨p, Finset.mem_filter.2 ⟨hp, hptrue⟩⟩


/-- Main invariant argument for the while loop of the sort.  Rem is the set
of indices not yet emitted; the counters record, for each index, the
number of its dominators still in Rem; F is exactly the zero-counter part
of Rem; indices outside Rem have counter zero.  Under these conditions the
loop emits non-empty duplicate-free fronts whose concatenation is exactly
Rem. -/
theorem frontiersGo_partition (pop : List Individual) :
    ∀ (fuel : ℕ) (Rem : Finset ℕ) (c : ℕ → ℤ) (F : List ℕ),
      (∀ p ∈ F, p ∈ Rem) →
      F.Nodup →
      (∀ q ∈ Rem, q < pop.length) →
      (∀ q, q < pop.length →
        c q = ((Rem.filter (fun p => q ∈ sIdx pop p)).card : ℤ)) →
      (∀ q, 0 ≤ c q) →
      (∀ q, q ∈ F ↔ q ∈ Rem ∧ c q = 0) →
      (∀ q, q < pop.length → q ∉ Rem → c q = 0) →
      Rem.card < fuel →
      (frontiersGo pop fuel c F).flatten.toFinset = Rem ∧
      (frontiersGo pop fuel c F).flatten.Nodup ∧
      [] ∉ frontiersGo pop fuel c F := by
  intro fuel
  induction fuel with
  | zero => intro Rem c F _ _ _ _ _ _ _ hcard; omega
  | succ fuel ih =>
      intro Rem c F hsub hnd hRem hc hc0 hF hplaced hcard
      by_cases hFe : F.isEmpty
      · have hFnil : F = [] := List.isEmpty_iff.1 hFe
        have hRemEmpty : Rem = ∅ := by
          by_contra hne
          obtain ⟨q, hqRem, hmin⟩ := exists_undominated pop Rem.card Rem le_rfl
            (Finset.nonempty_iff_ne_empty.2 hne)
          have hqlt := hRem q hqRem
          have hfilter : Rem.filter (fun p => q ∈ sIdx pop p) = ∅ := by
            rw [Finset.filter_eq_empty_iff]
            intro p hp hmem
            have hdom := (mem_sIdx.1 hmem).2
            unfold DomRel at hdom
            rw [hmin p hp] at hdom
            cases hdom
          have hcq : c q = 0 := by rw [hc q hqlt, hfilter]; simp
          have hqF : q ∈ F := (hF q).2 ⟨hqRem, hcq⟩
          rw [hFnil] at hqF
          exact absurd hqF (List.not_mem_nil q)
        subst hFnil
        rw [hRemEmpty]
        simp [frontiersGo]
      · have hFne : F ≠ [] := fun h => hFe (by rw [h]; rfl)
        have hunfold : frontiersGo pop (fuel + 1) c F =
            F :: frontiersGo pop fuel
              (fun q => c q - ((F.countP (fun p => decide (q ∈ sIdx pop p))) : ℤ))
              (newAppends pop c F) := by
          simp only [frontiersGo]
          rw [if_neg (by simpa using hFe)]
          have hps : processFront pop F c =
              (fun q => c q - ((F.countP (fun p => decide (q ∈ sIdx pop p))) : ℤ),
                [] ++ newAppends pop c F) := processFront_spec pop F c []
          rw [hps, List.nil_append]
        rw [hunfold]
        have hFtsub : F.toFinset ⊆ Rem := by
          intro p hp; exact hsub p (List.mem_toFinset.1 hp)
        have hcount_eq : ∀ q, (F.countP (fun p => decide (q ∈ sIdx pop p))) =
            (F.toFinset.filter (fun p => q ∈ sIdx pop p)).card := fun q =>
          countP_eq_card_filter_toFinset F hnd _
        have hb : ∀ q, ((F.countP (fun p => decide (q ∈ sIdx pop p))) : ℤ) ≤ c q := by
          intro q
          by_cases hqm : q < pop.length
          · rw [hc q hqm, hcount_eq q]
            exact_mod_cast Finset.card_le_card (Finset.filter_subset_filter _ hFtsub)
          · have hz : F.countP (fun p => decide (q ∈ sIdx pop p)) = 0 := by
              rw [List.countP_eq_zero]
              intro p _
              simp only [decide_eq_true_eq]
              intro hmem
              exact hqm (mem_sIdx.1 hmem).1
            rw [hz]
            exact_mod_cast hc0 q
        have hmemF' := mem_newAppends_iff pop F c hb
        have hF'sub : ∀ p ∈ newAppends pop c F, p ∈ Rem \ F.toFinset := by
          intro p hp
          obtain ⟨hpos, hcnt⟩ := (hmemF' p).1 hp
          have hplt := mem_newAppends_lt pop F c p hp
          have hpRem : p ∈ Rem := by
            by_contra hnot
            have := hplaced p hplt hnot
            omega
          have hpnotF : p ∉ F := by
            intro hmem
            have := ((hF p).1 hmem).2
            omega
          exact Finset.mem_sdiff.2 ⟨hpRem, fun hmem => hpnotF (List.mem_toFinset.1 hmem)⟩
        have hc'new : ∀ q, q < pop.length →
            (c q - ((F.countP (fun p => decide (q ∈ sIdx pop p))) : ℤ)) =
              (((Rem \ F.toFinset).filter (fun p => q ∈ sIdx pop p)).card : ℤ) := by
          intro q hqm
          have hdisj : Disjoint ((Rem \ F.toFinset).filter (fun p => q ∈ sIdx pop p))
              (F.toFinset.filter (fun p => q ∈ sIdx pop p)) :=
            Finset.disjoint_filter_filter Finset.sdiff_disjoint
          have hunion : (Rem \ F.toFinset).filter (fun p => q ∈ sIdx pop p) ∪
              F.toFinset.filter (fun p => q ∈ sIdx pop p) =
              Rem.filter (fun p => q ∈ sIdx pop p) := by
            rw [← Finset.filter_union, Finset.sdiff_union_of_subset hFtsub]
          have hcards : (Rem.filter (fun p => q ∈ sIdx pop p)).card =
              ((Rem \ F.toFinset).filter (fun p => q ∈ sIdx pop p)).card +
              (F.toFinset.filter (fun p => q ∈ sIdx pop p)).card := by
            rw [← Finset.card_union_of_disjoint hdisj, hunion]
          rw [hc q hqm, hcount_eq q]
          omega
        have hc0' : ∀ q, 0 ≤ c q - ((F.countP (fun p => decide (q ∈ sIdx pop p))) : ℤ) := by
          intro q
          by_cases hqm : q < pop.length
          · rw [hc'new q hqm]; positivity
          · have hz : F.countP (fun p => decide (q ∈ sIdx pop p)) = 0 := by
              rw [List.countP_eq_zero]
              intro p _
              simp only [decide_eq_true_eq]
              intro hmem
              exact hqm (mem_sIdx.1 hmem).1
            rw [hz]
            simpa using hc0 q
        have hF'iff : ∀ q, q ∈ newAppends pop c F ↔
            q ∈ Rem \ F.toFinset ∧
              c q - ((F.countP (fun p => decide (q ∈ sIdx pop p))) : ℤ) = 0 := by
          intro q
          constructor
          · intro hq
            obtain ⟨hpos, hcnt⟩ := (hmemF' q).1 hq
            exact ⟨hF'sub q hq, by omega⟩
          · rintro ⟨hqR, hq0⟩
            obtain ⟨hqRem, hqnotFt⟩ := Finset.mem_sdiff.1 hqR
            have hqnotF : q ∉ F := fun hmem => hqnotFt (List.mem_toFinset.2 hmem)
            have hcqnz : ¬ c q = 0 := by
              intro heq0
              exact hqnotF ((hF q).2 ⟨hqRem, heq0⟩)
            have hcqpos : 0 < c q := lt_of_le_of_ne (hc0 q) (Ne.symm hcqnz)
            exact (hmemF' q).2 ⟨hcqpos, by omega⟩
        have hplaced' : ∀ q, q < pop.length → q ∉ Rem \ F.toFinset →
            c q - ((F.countP (fun p => decide (q ∈ sIdx pop p))) : ℤ) = 0 := by
          intro q hqm hqnot
          have hble := hb q
          by_cases hqRem : q ∈ Rem
          · have hqFt : q ∈ F.toFinset := by
              by_contra hnot
              exact hqnot (Finset.mem_sdiff.2 ⟨hqRem, hnot⟩)
            have hcq0 : c q = 0 := ((hF q).1 (List.mem_toFinset.1 hqFt)).2
            omega
          · have hcq0 : c q = 0 := hplaced q hqm hqRem
            omega
        have hcard' : (Rem \ F.toFinset).card < fuel := by
          obtain ⟨p0, hp0⟩ := List.exists_mem_of_ne_nil F hFne
          have hp0Rem : p0 ∈ Rem := hsub p0 hp0
          have hp0Ft : p0 ∈ F.toFinset := List.mem_toFinset.2 hp0
          have hss : Rem \ F.toFinset ⊂ Rem := by
            refine ⟨Finset.sdiff_subset, fun hsup => ?_⟩
            have := Finset.mem_sdiff.1 (hsup hp0Rem)
            exact this.2 hp0Ft
          have := Finset.card_lt_card hss
          omega
        obtain ⟨hjoin, hnodup, hnil⟩ := ih (Rem \ F.toFinset)
          (fun q => c q - ((F.countP (fun p => decide (q ∈ sIdx pop p))) : ℤ))
          (newAppends pop c F)
          hF'sub (newAppends_nodup pop F c hb)
          (fun q hq => hRem q (Finset.mem_sdiff.1 hq).1)
          hc'new hc0' hF'iff hplaced' hcard'
        refine ⟨?_, ?_, ?_⟩
        · rw [List.flatten_cons, List.toFinset_append, hjoin,
            Finset.union_sdiff_of_subset hFtsub]
        · rw [List.flatten_cons]
          refine List.Nodup.append hnd hnodup ?_
          rw [List.disjoint_left]
          intro q hqF hqJ
          have hqFin : q ∈ (frontiersGo pop fuel _ _).flatten.toFinset :=
            List.mem_toFinset.2 hqJ
          rw [hjoin] at hqFin
          exact (Finset.mem_sdiff.1 hqFin).2 (List.mem_toFinset.2 hqF)
        · rw [List.mem_cons]
          rintro (hcase | hcase)
          · exact hFne hcase.symm
          · exact hnil hcase



/-- CLAIM C10: on every non-empty population, the fast non-dominated sort
returns a list of non-empty fronts (of population indices) whose
concatenation is a permutation of the index range: every input individual
is placed in exactly one front. -/
theorem C10_sort_partitions (ind0 : Individual) (rest : List Individual) :
    [] ∉ fastNonDominatedSortIdx (ind0 :: rest) ∧
    (fastNonDominatedSortIdx (ind0 :: rest)).flatten.Perm
      (List.range (ind0 :: rest).length) ∧
    [] ∉ fastNonDominatedSort (ind0 :: rest) := by
  set pop := ind0 :: rest with hpopdef
  have hpred : ∀ q, q < pop.length → ∀ p,
      (decide (q ∈ sIdx pop p)) =
        dominatesB (pop.getD p defaultIndividual) (pop.getD q defaultIndividual) := by
    intro q hq p
    by_cases hmem : q ∈ sIdx pop p
    · rw [decide_eq_true hmem]
      have hd := (mem_sIdx.1 hmem).2
      unfold DomRel at hd
      exact hd.symm
    · rw [decide_eq_false hmem]
      cases hv : dominatesB (pop.getD p defaultIndividual) (pop.getD q defaultIndividual) with
      | false => rfl
      | true => exact absurd (mem_sIdx.2 ⟨hq, hv⟩) hmem
  have hdomc : ∀ q, q < pop.length →
      domCount pop q = (((List.range pop.length).toFinset.filter
        (fun p => q ∈ sIdx pop p)).card : ℤ) := by
    intro q hq
    have h1 : ((List.range pop.length).filter (fun p =>
        dominatesB (pop.getD p defaultIndividual) (pop.getD q defaultIndividual))).length =
        (List.range pop.length).countP (fun p =>
          dominatesB (pop.getD p defaultIndividual) (pop.getD q defaultIndividual)) := by
      rw [List.countP_eq_length_filter]
    have h2 : (List.range pop.length).countP (fun p =>
        dominatesB (pop.getD p defaultIndividual) (pop.getD q defaultIndividual)) =
        (List.range pop.length).countP (fun p => decide (q ∈ sIdx pop p)) := by
      apply List.countP_congr
      intro p _
      rw [hpred q hq p]
    have h3 := countP_eq_card_filter_toFinset (List.range pop.length)
      (List.nodup_range _) (fun p => q ∈ sIdx pop p)
    unfold domCount
    rw [h1, h2, h3]
  have hmain := frontiersGo_partition pop (pop.length + 1)
    (List.range pop.length).toFinset
    (fun q => domCount pop q)
    ((List.range pop.length).filter (fun q => decide (domCount pop q = 0)))
    (fun p hp => List.mem_toFinset.2 (List.mem_of_mem_filter hp))
    ((List.nodup_range _).filter _)
    (fun q hq => List.mem_range.1 (List.mem_toFinset.1 hq))
    (fun q hq => hdomc q hq)
    (fun q => by unfold domCount; positivity)
    (fun q => by
      constructor
      · intro hmem
        have h1 := List.mem_filter.1 hmem
        exact ⟨List.mem_toFinset.2 h1.1, of_decide_eq_true h1.2⟩
      · rintro ⟨h1, h2⟩
        exact List.mem_filter.2 ⟨List.mem_toFinset.1 h1, decide_eq_true h2⟩)
    (fun q hq hnot => absurd (List.mem_toFinset.2 (List.mem_range.2 hq)) hnot)
    (by
      rw [List.toFinset_card_of_nodup (List.nodup_range _), List.length_range]
      omega)
  have heq : fastNonDominatedSortIdx pop = frontiersGo pop (pop.length + 1)
      (fun q => domCount pop q)
      ((List.range pop.length).filter (fun q => decide (domCount pop q = 0))) := rfl
  obtain ⟨hjoin, hnodup, hnil⟩ := hmain
  refine ⟨?_, ?_, ?_⟩
  · rw [heq]; exact hnil
  · rw [heq]
    exact List.perm_of_nodup_nodup_toFinset_eq hnodup (List.nodup_range _) hjoin
  · intro hmem
    obtain ⟨kf, hkf, hkfeq⟩ := List.mem_map.1 hmem
    have hkf2 : kf.2 = [] := List.map_eq_nil_iff.1 hkfeq
    have h2 : kf.2 ∈ fastNonDominatedSortIdx pop := by
      have h3 := List.mem_map_of_mem Prod.snd hkf
      rw [List.enum_map_snd] at h3
      exact h3
    rw [hkf2, heq] at h2
    exact hnil h2



/-! Population laws of MOGA.run. -/

/-- Membership through stable insertion. -/
theorem mem_insertLe {α : Type} (le : α → α → Bool) (x : α) :
    ∀ (l : List α) (a : α), a ∈ insertLe le x l ↔ a = x ∨ a ∈ l := by
  intro l
  induction l with
  | nil => intro a; simp [insertLe]
  | cons y ys ih =>
      intro a
      simp only [insertLe]
      by_cases h : le y x
      · rw [if_pos h]
        simp only [List.mem_cons, ih]
        tauto
      · rw [if_neg h]
        simp only [List.mem_cons]


/-- Membership through the stable sort. -/
theorem mem_sortLe {α : Type} (le : α → α → Bool) (l : List α) (a : α) :
    a ∈ sortLe le l ↔ a ∈ l := by
  have hgen : ∀ (l2 : List α) (acc : List α),
      a ∈ l2.foldl (fun acc x => insertLe le x acc) acc ↔ a ∈ acc ∨ a ∈ l2 := by
    intro l2
    induction l2 with
    | nil => intro acc; simp
    | cons x xs ih =>
        intro acc
        rw [List.foldl_cons, ih, mem_insertLe]
        simp only [List.mem_cons]
        tauto
  rw [sortLe, hgen]
  simp

/-- Crowding-distance assignment only rewrites the crowding_distance field
and reorders: every output individual carries the rank of some member of
the front. -/
theorem cdAssign_rank (f : List Individual) (x : Individual)
    (hx : x ∈ crowdingDistanceAssign f) : ∃ y ∈ f, x.rank = y.rank := by
  simp only [crowdingDistanceAssign] at hx
  rw [mem_sortLe] at hx
  obtain ⟨kx, hkx, rfl⟩ := List.mem_map.1 hx
  refine ⟨kx.2, ?_, rfl⟩
  have h3 := List.mem_map_of_mem Prod.snd hkx
  rw [List.enum_map_snd] at h3
  exact h3

/-- Every individual placed in a front by the sort carries a positive
rank. -/
theorem fastNonDominatedSort_rank (L : List Individual) :
    ∀ f ∈ fastNonDominatedSort L, ∀ x ∈ f, 1 ≤ x.rank := by
  intro f hf x hx
  simp only [fastNonDominatedSort] at hf
  obtain ⟨kf, _, rfl⟩ := List.mem_map.1 hf
  obtain ⟨i, _, rfl⟩ := List.mem_map.1 hx
  simp

/-- Members of the truncated next population come from the accumulator or
from the crowding-sorted fronts. -/
theorem mem_buildNextPopulation (n : ℕ) :
    ∀ (fronts : List (List Individual)) (P : List Individual) (x : Individual),
      x ∈ buildNextPopulation n fronts P →
      x ∈ P ∨ ∃ f ∈ fronts, x ∈ crowdingDistanceAssign f := by
  intro fronts
  induction fronts with
  | nil =>
      intro P x h
      exact Or.inl (by simpa [buildNextPopulation] using h)
  | cons f fs ih =>
      intro P x h
      simp only [buildNextPopulation] at h
      by_cases hfit : P.length + (crowdingDistanceAssign f).length < n
      · rw [if_pos hfit] at h
        rcases ih _ _ h with hmem | ⟨f2, hf2, hxf2⟩
        · rcases List.mem_append.1 hmem with h1 | h1
          · exact Or.inl h1
          · exact Or.inr ⟨f, List.mem_cons_self _ _, h1⟩
        · exact Or.inr ⟨f2, List.mem_cons_of_mem _ hf2, hxf2⟩
      · rw [if_neg hfit] at h
        rcases List.mem_append.1 h with h1 | h1
        · exact Or.inl h1
        · exact Or.inr ⟨f, List.mem_cons_self _ _, List.take_subset _ _ h1⟩

/-- Every member of a freshly built next population has positive rank. -/
theorem buildNext_rank (n : ℕ) (L : List Individual) (x : Individual)
    (hx : x ∈ buildNextPopulation n (fastNonDominatedSort L) []) : 1 ≤ x.rank := by
  rcases mem_buildNextPopulation n _ [] x hx with h | ⟨f, hf, hxf⟩
  · exact absurd h (List.not_mem_nil x)
  · obtain ⟨y, hy, hrank⟩ := cdAssign_rank f x hxf
    rw [hrank]
    exact fastNonDominatedSort_rank L f hf y hy

/-- Shape of the generation loop: it appends exactly one population per
generation, each of the asserted size and with positive ranks
throughout. -/
theorem mogaRunGo_spec (cfg : MOGACfg) (fuel : ℕ) :
    ∀ (g : ℕ) (P : List Individual) (hist : List (List Individual)) (rng : Rng)
      (res : List (List Individual) × Rng),
      mogaRunGo cfg fuel g P hist rng = some res →
      ∃ tail, res.1 = hist ++ tail ∧ tail.length = g ∧
        (∀ pop ∈ tail, pop.length = cfg.init_pop_size) ∧
        (∀ pop ∈ tail, ∀ x ∈ pop, 1 ≤ x.rank) := by
  intro g
  induction g with
  | zero =>
      intro P hist rng res h
      simp only [mogaRunGo] at h
      injection h with h'
      refine ⟨[], ?_, rfl, ?_, ?_⟩
      · rw [← h']; simp
      · intro pop hp; exact absurd hp (List.not_mem_nil pop)
      · intro pop hp; exact absurd hp (List.not_mem_nil pop)
  | succ g ih =>
      intro P hist rng res h
      simp only [mogaRunGo] at h
      rcases hm : mutatePopulation cfg.p_mutation fuel P rng with _ | ⟨Q, rng1⟩
      · rw [hm] at h; cases h
      · rw [hm] at h
        dsimp only at h
        by_cases hlen : (buildNextPopulation cfg.init_pop_size
            (fastNonDominatedSort (P ++ Q)) []).length = cfg.init_pop_size
        · rw [if_pos hlen] at h
          obtain ⟨tail, h1, h2, h3, h4⟩ := ih _ _ _ _ h
          refine ⟨buildNextPopulation cfg.init_pop_size
            (fastNonDominatedSort (P ++ Q)) [] :: tail, ?_, ?_, ?_, ?_⟩
          · rw [h1]; simp
          · simp [h2]
          · intro pop hp
            rcases List.mem_cons.1 hp with h5 | h5
            · rw [h5]; exact hlen
            · exact h3 pop h5
          · intro pop hp x hx
            rcases List.mem_cons.1 hp with h5 | h5
            · exact buildNext_rank cfg.init_pop_size (P ++ Q) x (h5 ▸ hx)
            · exact h4 pop h5 x hx
        · rw [if_neg hlen] at h; cases h

/-- Shape of the random part of the initial population: one individual per
seed, all with rank 0. -/
theorem randomPartGo_spec (plan0 : Plan) (fuel : ℕ) :
    ∀ (l : List ℕ) (acc : List Individual) (rng : Rng) (res : List Individual × Rng),
      randomPartGo plan0 fuel l acc rng = some res →
      res.1.length = acc.length + l.length ∧
        (∀ x ∈ res.1, x ∈ acc ∨ x.rank = 0) := by
  intro l
  induction l with
  | nil =>
      intro acc rng res h
      simp only [randomPartGo] at h
      injection h with h'
      rw [← h']
      exact ⟨by simp, fun x hx => Or.inl hx⟩
  | cons i rest ih =>
      intro acc rng res h
      simp only [randomPartGo] at h
      rcases hg : generateOne plan0.activities plan0.N plan0.system.resources rng
        with _ | ⟨X, rng1⟩
      · rw [hg] at h; cases h
      · rw [hg] at h
        dsimp only at h
        rcases hp : mkPlan plan0.activities plan0.system (some X) fuel with e | p
        · rw [hp] at h; cases h
        · rw [hp] at h
          dsimp only at h
          obtain ⟨h1, h2⟩ := ih _ _ _ h
          constructor
          · rw [h1]; simp; omega
          · intro x hx
            rcases h2 x hx with hmem | hr
            · rcases List.mem_append.1 hmem with h3 | h3
              · exact Or.inl h3
              · have h4 : x = mkIndividual p := by simpa using h3
                exact Or.inr (by rw [h4]; rfl)
            · exact Or.inr hr

/-- Shape of generate_initial_population: init_pop_size - 1 random
individuals plus the injected singleton individual, all with rank 0 as
set by Individual.__init__. -/
theorem generateInitialPopulation_spec (plan0 : Plan) (initPop fuel : ℕ) (rng : Rng)
    (res : List Individual × Rng)
    (h : generateInitialPopulation plan0 initPop fuel rng = some res) :
    res.1.length = (initPop - 1) + 1 ∧ ∀ x ∈ res.1, x.rank = 0 := by
  simp only [generateInitialPopulation] at h
  rcases hr : randomPartGo plan0 fuel (List.range (initPop - 1)) [] rng
    with _ | ⟨pop, rng1⟩
  · rw [hr] at h; cases h
  · rw [hr] at h
    dsimp only at h
    rcases hs : singletonDrawsGo plan0.system.resources (List.range plan0.N)
        (fun _ => 0) rng1 with _ | ⟨rr, rng2⟩
    · rw [hs] at h; cases h
    · rw [hs] at h
      dsimp only at h
      rcases hp : mkPlan plan0.activities plan0.system
          (some ⟨plan0.N, plan0.system.resources, fun i j r => if i = j ∧ r = rr i then 1 else 0⟩)
          fuel with e | p
      · rw [hp] at h; cases h
      · rw [hp] at h
        injection h with h'
        rw [← h']
        obtain ⟨h1, h2⟩ := randomPartGo_spec plan0 fuel _ _ _ _ hr
        constructor
        · simp only [List.length_append, List.length_cons, List.length_nil]
          rw [h1]
          simp
        · intro x hx
          rcases List.mem_append.1 hx with h3 | h3
          · rcases h2 x h3 with h4 | h4
            · exact absurd h4 (List.not_mem_nil x)
            · exact h4
          · have h4 : x = mkIndividual p := by simpa using h3
            rw [h4]; rfl

/-- CLAIM C1: whenever MOGA.run returns, population_history holds
n_generations + 1 populations and every one of them holds exactly
init_pop_size Individuals. -/
theorem C1_run_population_history (cfg : MOGACfg) (plan0 : Plan) (fuel : ℕ) (rng : Rng)
    (hist : List (List Individual)) (hpop : 1 ≤ cfg.init_pop_size)
    (_hp0 : 0 ≤ cfg.p_mutation) (_hp1 : cfg.p_mutation ≤ 1)
    (hrun : mogaRun cfg plan0 fuel rng = some hist) :
    hist.length = cfg.n_generations + 1 ∧
    hist.map List.length = List.replicate (cfg.n_generations + 1) cfg.init_pop_size := by
  simp only [mogaRun] at hrun
  rcases hg : generateInitialPopulation plan0 cfg.init_pop_size fuel rng
    with _ | ⟨P0, rng1⟩
  · rw [hg] at hrun; cases hrun
  · rw [hg] at hrun
    dsimp only at hrun
    rcases hl : mogaRunGo cfg fuel cfg.n_generations P0 [P0] rng1 with _ | res
    · rw [hl] at hrun; cases hrun
    · rw [hl] at hrun
      dsimp only at hrun
      injection hrun with h'
      obtain ⟨hlen0, _⟩ := generateInitialPopulation_spec plan0 cfg.init_pop_size fuel rng _ hg
      have hP0len : P0.length = cfg.init_pop_size := by
        have : P0.length = (cfg.init_pop_size - 1) + 1 := hlen0
        omega
      obtain ⟨tail, h1, h2, h3, _⟩ := mogaRunGo_spec cfg fuel cfg.n_generations P0 [P0] rng1 res hl
      rw [← h', h1]
      constructor
      · simp only [List.length_append, List.length_cons, List.length_nil]
        omega
      · rw [List.eq_replicate_iff]
        constructor
        · simp only [List.length_map, List.length_append, List.length_cons, List.length_nil]
          omega
        · intro b hb
          obtain ⟨pop, hpop2, rfl⟩ := List.mem_map.1 hb
          rcases List.mem_append.1 hpop2 with h5 | h5
          · have h6 : pop = P0 := by simpa using h5
            rw [h6]; exact hP0len
          · exact h3 pop h5

/-- Witness for C1: a concrete one-generation run of the whole pipeline. -/
theorem C1_run_population_history_witness :
    1 ≤ witCfg1.init_pop_size ∧ (0 : ℚ) ≤ witCfg1.p_mutation ∧ witCfg1.p_mutation ≤ 1 ∧
    witHist1.length = witCfg1.n_generations + 1 ∧
    witHist1.map List.length =
      List.replicate (witCfg1.n_generations + 1) witCfg1.init_pop_size := by
  have hrun : mogaRun witCfg1 witPlan0 150 witRng = some witHist1 := by
    with_unfolding_all rfl
  have hmain := C1_run_population_history witCfg1 witPlan0 150 witRng witHist1
    (by with_unfolding_all decide) (by with_unfolding_all decide)
    (by with_unfolding_all decide) hrun
  exact ⟨by with_unfolding_all decide, by with_unfolding_all decide,
    by with_unfolding_all decide, hmain.1, hmain.2⟩

/-- CLAIM C8 (amended): on any completed run, every Individual of every
population of index at least 1 in population_history has rank at least 1,
while the initial population at generation 0 consists of Individuals whose
rank is still the constructor value 0. -/
theorem C8_rank_positive_after_generation_zero (cfg : MOGACfg) (plan0 : Plan)
    (fuel : ℕ) (rng : Rng) (hist : List (List Individual))
    (hrun : mogaRun cfg plan0 fuel rng = some hist) :
    ((hist.drop 1).all (fun pop => pop.all (fun x => decide (1 ≤ x.rank))) = true) ∧
    ((hist.headD []).all (fun x => decide (x.rank = 0)) = true) := by
  simp only [mogaRun] at hrun
  rcases hg : generateInitialPopulation plan0 cfg.init_pop_size fuel rng
    with _ | ⟨P0, rng1⟩
  · rw [hg] at hrun; cases hrun
  · rw [hg] at hrun
    dsimp only at hrun
    rcases hl : mogaRunGo cfg fuel cfg.n_generations P0 [P0] rng1 with _ | res
    · rw [hl] at hrun; cases hrun
    · rw [hl] at hrun
      dsimp only at hrun
      injection hrun with h'
      obtain ⟨_, hrank0⟩ := generateInitialPopulation_spec plan0 cfg.init_pop_size fuel rng _ hg
      obtain ⟨tail, h1, _, _, h4⟩ := mogaRunGo_spec cfg fuel cfg.n_generations P0 [P0] rng1 res hl
      rw [← h', h1]
      constructor
      · rw [List.all_eq_true]
        intro pop hp
        rw [List.all_eq_true]
        intro x hx
        have hp2 : pop ∈ tail := by simpa using hp
        exact decide_eq_true (h4 pop hp2 x hx)
      · rw [List.all_eq_true]
        intro x hx
        have hx2 : x ∈ P0 := by simpa using hx
        exact decide_eq_true (hrank0 x hx2)

/-- Witness for C8 on the concrete one-generation run. -/
theorem C8_rank_positive_witness :
    ((witHist1.drop 1).all (fun pop => pop.all (fun x => decide (1 ≤ x.rank))) = true) ∧
    ((witHist1.headD []).all (fun x => decide (x.rank = 0)) = true) :=
  C8_rank_positive_after_generation_zero witCfg1 witPlan0 150 witRng witHist1
    (by with_unfolding_all rfl)

/-- Counterexample to C8 as stated: a run with zero generations keeps the
initial population as generation 0 of the history, and its individuals
still carry the constructor rank 0, below the claimed bound 1. -/
theorem C8_initial_rank_zero_counterexample :
    ¬ (∀ pop ∈ (mogaRun witCfg0 witPlan0 150 witRng).getD [], ∀ x ∈ pop, 1 ≤ x.rank) := by
  with_unfolding_all decide

/-- CLAIM C2: on a single-component system the mutated component has no
candidate slot (the filtered list g of moga.py lines 49-55 is empty), and
Individual.mutate, far from leaving the assignment unchanged, dies in
np.random.choice on the empty candidate list (the modelled ValueError,
i.e. none). -/
theorem C2_mutate_empty_candidates_raises :
    ((List.range c2Tensor.N).filter (fun j =>
      decide (j ≠ 0) &&
      decide ((((List.range c2Tensor.N).map (fun i2 => c2Tensor.slotMatrix i2 j)).sum : ℕ)
        < c2Ind.plan.system.resources)) = []) ∧
    Individual.mutate c2Ind 1 c2Rng 150 = none :=
  ⟨by with_unfolding_all rfl, by with_unfolding_all rfl⟩


end NetFlowOpt
